import Mathlib

/-!
# WeChat article editor (`src/script.js`): document synchronisation and versioning core

A shallow embedding of the editing, autosave and version-history functions of
`src/script.js`, followed by theorems about them.

Conventions of the embedding

* A JavaScript string is the list of its UTF-16 code units (`Str`), so that
  `substring`, `charCodeAt` and `length` are the list operations on code units.
* The DOM fields the script reads and writes (`editor.value`, the selection, the title and
  author inputs, the save status text) and the script's globals (`currentHash`,
  `autoSaveTimer`) are the fields of `State`; `localStorage` is the record `LocalStorage`,
  an absent key being `none`.
* `JSON.parse (JSON.stringify x)` is the identity on the version array, so the `versions`
  key holds the list itself.
* The clock (`Date.now()`), the locale date text and the answer of `prompt` are inputs of
  the functions that read them.
* `renderMarkdown` only recomputes the preview pane from `editor.value` through the external
  renderer; the preview is not part of `State`.
-/

namespace WeChatEditor

/-! ## Strings -/

/-- A JavaScript string: its UTF-16 code units. -/
abbrev Str := List Nat

/-- UTF-16 encoding of one code point. -/
def utf16 (c : Char) : List Nat :=
  if c.toNat < 65536 then [c.toNat]
  else [55296 + (c.toNat - 65536) / 1024, 56320 + (c.toNat - 65536) % 1024]

/-- The JavaScript string written by a source literal. -/
def js (s : String) : Str := s.toList.flatMap utf16

/-- `a || b` on strings: the empty string is falsy. -/
def orElse (a b : Str) : Str := if a = [] then b else a

/-- `s.substring(a, b)`: both indices are clamped to the length and swapped when `a > b`. -/
def substring (s : Str) (a b : Nat) : Str :=
  let a' := min a s.length
  let b' := min b s.length
  (s.drop (min a' b')).take (max a' b' - min a' b')

/-- `s.substring(a)`: from index `a` (clamped) to the end. -/
def substringFrom (s : Str) (a : Nat) : Str := s.drop (min a s.length)

/-! ## State -/

/-- One saved snapshot, as built by `saveVersion`. -/
structure Version where
  id : Nat
  title : Str
  content : Str
  author : Str
  timestamp : Str
deriving DecidableEq, Repr

/-- The keys of `localStorage` the script uses. -/
structure LocalStorage where
  markdownContent : Option Str
  articleTitle : Option Str
  articleAuthor : Option Str
  contentHash : Option Str
  theme : Option Str
  versions : Option (List Version)
deriving DecidableEq, Repr

/-- The editor session: DOM fields, script globals and `localStorage`. -/
structure State where
  /-- Text of the editor textarea, `editor.value`. -/
  editorValue : Str
  selectionStart : Nat
  selectionEnd : Nat
  /-- Value of the title input, `articleTitle.value`. -/
  articleTitle : Str
  /-- Value of the author input, `articleAuthor.value`. -/
  articleAuthor : Str
  currentHash : Str
  /-- Deadline of the pending autosave timeout, `none` when no timeout is pending. -/
  autoSaveTimer : Option Nat
  /-- Text of the `saveStatus` element. -/
  saveStatus : Str
  localStorage : LocalStorage
  /-- Messages shown with `alert`, oldest first. -/
  alerts : List Str
deriving DecidableEq, Repr

/-! ## Autosave -/

/-- `ToInt32` on an integer-valued number. -/
def toInt32 (x : Int) : Int := (x + 2147483648) % 4294967296 - 2147483648

/-- One iteration of the loop of `simpleHash`:
`hash = ((hash << 5) - hash) + char; hash = hash & hash`. -/
def hashStep (hash : Int) (char : Nat) : Int :=
  toInt32 (toInt32 (hash * 32) - hash + (char : Int))

/-- `simpleHash(str)`: the 32-bit rolling hash, as the decimal text of the number. -/
def simpleHash (str : Str) : Str := js (toString (str.foldl hashStep 0))

/-- `triggerAutoSave()` called at time `now`: cancels the pending timeout, shows the
saving text and arms a timeout for `saveContent` 1000 ms later. -/
def triggerAutoSave (now : Nat) (s : State) : State :=
  { s with saveStatus := js "保存中...", autoSaveTimer := some (now + 1000) }

/-- `saveContent()`. -/
def saveContent (s : State) : State :=
  let content := s.editorValue
  let title := s.articleTitle
  let author := s.articleAuthor
  let hash := simpleHash (content ++ title ++ author)
  if hash ≠ s.currentHash then
    { s with
      localStorage := { s.localStorage with
        markdownContent := some content
        articleTitle := some title
        articleAuthor := some author
        contentHash := some hash }
      currentHash := hash
      saveStatus := js "已自动保存" }
  else
    { s with saveStatus := js "已自动保存" }

/-! ## Version history -/

/-- `JSON.parse(localStorage.getItem('versions') || '[]')`. -/
def storedVersions (s : State) : List Version := s.localStorage.versions.getD []

/-- The entry `saveVersion` builds; `now` is `Date.now()` and `stamp` is
`new Date().toLocaleString('zh-CN')`. -/
def newVersion (now : Nat) (stamp : Str) (s : State) : Version :=
  { id := now
    title := orElse s.articleTitle (js "未命名文章")
    content := s.editorValue
    author := s.articleAuthor
    timestamp := stamp }

/-- `saveVersion()`. -/
def saveVersion (now : Nat) (stamp : Str) (s : State) : State :=
  let versions := storedVersions s
  let version := newVersion now stamp s
  let versions := version :: versions
  let versions := if versions.length > 10 then versions.dropLast else versions
  { s with
    localStorage := { s.localStorage with versions := some versions }
    alerts := s.alerts ++ [js "版本已保存"] }

/-! ## Documents, the clock and runs of calls -/

/-- The Document: editor text, title and author. -/
structure Document where
  text : Str
  title : Str
  author : Str
deriving DecidableEq, Repr

/-- The Document currently in the editor and the two inputs. -/
def document (s : State) : Document :=
  { text := s.editorValue, title := s.articleTitle, author := s.articleAuthor }

/-- The user's edits: the editor and the two inputs now hold `d`. -/
def setDocument (d : Document) (s : State) : State :=
  { s with editorValue := d.text, articleTitle := d.title, articleAuthor := d.author }

/-- The state the script starts from on an empty `localStorage`: empty fields,
`currentHash = ''`, `autoSaveTimer = null`. -/
def initialState : State :=
  { editorValue := [], selectionStart := 0, selectionEnd := 0
    articleTitle := [], articleAuthor := [], currentHash := []
    autoSaveTimer := none, saveStatus := []
    localStorage :=
      { markdownContent := none, articleTitle := none, articleAuthor := none
        contentHash := none, theme := none, versions := none }
    alerts := [] }

/-- A run of `saveVersion()` calls; before each one the Document is `d`, the clock reads
`now` and the locale date text is `stamp`. -/
def saveVersions : List (Document × Nat × Str) → State → State
  | [], s => s
  | (d, now, stamp) :: rest, s => saveVersions rest (saveVersion now stamp (setDocument d s))

/-- The entry a `saveVersion()` call stores for the Document `d`. -/
def entryOf (c : Document × Nat × Str) : Version :=
  { id := c.2.1
    title := orElse c.1.title (js "未命名文章")
    content := c.1.text
    author := c.1.author
    timestamp := c.2.2 }

/-- The session with its clock, and the runs of `saveContent` started by the autosave
timeout: the time of each run and the Document it read. -/
structure Timed where
  now : Nat
  state : State
  saves : List (Nat × Document)
deriving DecidableEq, Repr

/-- Time passes for `dt` ms with no other event. A pending timeout whose deadline is reached
runs its callback, `saveContent`, at the deadline, and is no longer pending. -/
def wait (dt : Nat) (w : Timed) : Timed :=
  match w.state.autoSaveTimer with
  | some deadline =>
    if deadline ≤ w.now + dt then
      { now := w.now + dt
        state := saveContent { w.state with autoSaveTimer := none }
        saves := w.saves ++ [(deadline, document w.state)] }
    else { w with now := w.now + dt }
  | none => { w with now := w.now + dt }

/-- An input event at the current time: the Document becomes `d` and the handler calls
`triggerAutoSave()`. -/
def editCall (d : Document) (w : Timed) : Timed :=
  { w with state := triggerAutoSave w.now (setDocument d w.state) }

/-- A run of `triggerAutoSave()` calls, each `dt` ms after the previous one, with the
Document as edited at that call. -/
def editCalls : List (Nat × Document) → Timed → Timed
  | [], w => w
  | (dt, d) :: rest, w => editCalls rest (editCall d (wait dt w))

/-- The fingerprint `saveContent` computes for a Document. -/
def fingerprint (d : Document) : Str := simpleHash (d.text ++ d.title ++ d.author)

/-- The persisted text, title, author and fingerprint are those of `d`, and `currentHash`
is that fingerprint. -/
def Committed (d : Document) (s : State) : Prop :=
  s.localStorage.markdownContent = some d.text ∧
  s.localStorage.articleTitle = some d.title ∧
  s.localStorage.articleAuthor = some d.author ∧
  s.localStorage.contentHash = some (fingerprint d) ∧
  s.currentHash = fingerprint d

/-- A session whose last committed Document is text `ab`, title `c`, empty author, and whose
current Document is text `a`, title `bc`, empty author. -/
def regroupedState : State :=
  { initialState with
    editorValue := js "a"
    articleTitle := js "bc"
    currentHash := fingerprint ⟨js "ab", js "c", []⟩
    localStorage :=
      { markdownContent := some (js "ab"), articleTitle := some (js "c")
        articleAuthor := some [], contentHash := some (fingerprint ⟨js "ab", js "c", []⟩)
        theme := none, versions := none } }

/-! ## Toolbar actions -/

/-- An entry of `markdownSyntax`: the source's `prefix` and `suffix`. -/
structure Markup where
  pfx : Str
  sfx : Str
deriving DecidableEq, Repr

/-- The table `markdownSyntax`, read as `markdownSyntax[action]`: `none` is `undefined`.
(Names inherited from `Object.prototype`, which are no toolbar action, are not modelled.) -/
def markdownSyntax (action : String) : Option Markup :=
  match action with
  | "bold" => some { pfx := js "**", sfx := js "**" }
  | "italic" => some { pfx := js "*", sfx := js "*" }
  | "underline" => some { pfx := js "<u>", sfx := js "</u>" }
  | "strikethrough" => some { pfx := js "~~", sfx := js "~~" }
  | "h1" => some { pfx := js "# ", sfx := js "" }
  | "h2" => some { pfx := js "## ", sfx := js "" }
  | "h3" => some { pfx := js "### ", sfx := js "" }
  | "h4" => some { pfx := js "#### ", sfx := js "" }
  | "ul" => some { pfx := js "- ", sfx := js "" }
  | "ol" => some { pfx := js "1. ", sfx := js "" }
  | "quote" => some { pfx := js "> ", sfx := js "" }
  | "code" => some { pfx := js "```\n", sfx := js "\n```" }
  | "inlineCode" => some { pfx := js "`", sfx := js "`" }
  | "link" => some { pfx := js "[", sfx := js "](url)" }
  | "image" => some { pfx := js "![alt](", sfx := js ")" }
  | "divider" => some { pfx := js "\n---\n", sfx := js "" }
  | _ => none

/-- The template literal `tableText` of `wrapSelection`. -/
def tableText : Str :=
  js "\n| 列1 | 列2 | 列3 |\n|-----|-----|-----|\n| 内容1 | 内容2 | 内容3 |\n| 内容4 | 内容5 | 内容6 |\n"

/-- The assignment `editor.value = v`. When it changes the value, a textarea moves the
cursor to the end of the text and drops the selection. -/
def setEditorValue (v : Str) (s : State) : State :=
  if v = s.editorValue then s
  else { s with editorValue := v, selectionStart := v.length, selectionEnd := v.length }

/-- `wrapSelection(action)` called at time `now`; `answer` is what `prompt` returns when the
link branch asks for the address (`none` is `null`). The image branch only opens a file
chooser: its text change happens later, in the chooser's callback. -/
def wrapSelection (action : String) (answer : Option Str) (now : Nat) (s : State) : State :=
  match markdownSyntax action with
  | none => s
  | some syn =>
    let start := s.selectionStart
    let stop := s.selectionEnd
    let selectedText := substring s.editorValue start stop
    let s1 :=
      if action = "link" then
        match answer with
        | none => s
        | some url =>
          if url = [] then s
          else
            let newText := js "[" ++ orElse selectedText (js "链接文字") ++ js "](" ++ url ++ js ")"
            setEditorValue
              (substring s.editorValue 0 start ++ newText ++ substringFrom s.editorValue stop) s
      else if action = "image" then s
      else if action = "table" then
        setEditorValue
          (substring s.editorValue 0 start ++ tableText ++ substringFrom s.editorValue stop) s
      else
        let newText := syn.pfx ++ selectedText ++ syn.sfx
        setEditorValue
          (substring s.editorValue 0 start ++ newText ++ substringFrom s.editorValue stop) s
    triggerAutoSave now s1

/-- The style kinds that `wrapSelection` handles through the table alone. -/
def staticKinds : List String :=
  ["bold", "italic", "underline", "strikethrough", "h1", "h2", "h3", "h4",
    "ul", "ol", "quote", "code", "inlineCode"]

/-- The editor holding `text` with the selection `start .. stop`, in a new session. -/
def editing (text : Str) (start stop : Nat) : State :=
  { initialState with editorValue := text, selectionStart := start, selectionEnd := stop }

/-! ## Tab key -/

/-- A LineTerminator of the regular-expression grammar: LF, CR, LS, PS. With the `m` flag,
`^` holds at the start of the string and right after one of these. -/
def isLineTerminator (c : Nat) : Bool :=
  c == 10 || c == 13 || c == 8232 || c == 8233

/-- A code unit matched by `\s`: the WhiteSpace and LineTerminator code points. -/
def isWhiteSpace (c : Nat) : Bool :=
  c == 9 || c == 10 || c == 11 || c == 12 || c == 13 || c == 32 || c == 160 ||
    c == 5760 || (8192 ≤ c && c ≤ 8202) || c == 8232 || c == 8233 || c == 8239 ||
    c == 8287 || c == 12288 || c == 65279

/-- `str.replace(/^/gm, '  ')` from a position of `str` on: `lineStart` says whether `^`
holds at that position, and the argument is the rest of the string. Every position where
`^` holds, the end of the string included, is an empty match and receives the two spaces. -/
def indentFrom (lineStart : Bool) : Str → Str
  | [] => if lineStart then [32, 32] else []
  | c :: rest =>
    (if lineStart then [32, 32] else []) ++ c :: indentFrom (isLineTerminator c) rest

/-- `spaces.slice(0, -2)`: all but the last two code units. -/
def sliceDropTwo (spaces : Str) : Str := spaces.take (spaces.length - 2)

/-- `str.replace(/^(\s*)/gm, (match, spaces) => spaces.slice(0, -2))` from a position of
`str` on: `lineStart` says whether `^` holds at that position, and `rest` is the rest of the
string. Where `^` holds, the match is the longest run of `\s` code units from there; it is
replaced and the search resumes at its end, or one code unit further when the match is
empty. Elsewhere one code unit is copied. `fuel` bounds the number of steps. -/
def outdentFrom : Nat → Bool → Str → Str
  | 0, _, rest => rest
  | fuel + 1, true, rest =>
    match rest.takeWhile isWhiteSpace, rest.dropWhile isWhiteSpace with
    | [], [] => []
    | [], c :: tail => c :: outdentFrom fuel (isLineTerminator c) tail
    | sp :: spaces, tail =>
      sliceDropTwo (sp :: spaces) ++
        outdentFrom fuel (isLineTerminator ((sp :: spaces).getLast (List.cons_ne_nil _ _))) tail
  | _ + 1, false, [] => []
  | fuel + 1, false, c :: tail => c :: outdentFrom fuel (isLineTerminator c) tail

/-- `selectedText.replace(/^/gm, '  ')`. -/
def indentSelected (selectedText : Str) : Str := indentFrom true selectedText

/-- `selectedText.replace(/^(\s*)/gm, (match, spaces) => spaces.slice(0, -2))`. -/
def outdentSelected (selectedText : Str) : Str :=
  outdentFrom (selectedText.length + 1) true selectedText

/-- `handleKeyDown(e)` for `e.key === 'Tab'`, with `shiftKey` the event's `shiftKey`. The
shortcut `switch` has no case for this key, so only the Tab block runs. -/
def handleKeyDown (shiftKey : Bool) (s : State) : State :=
  let start := s.selectionStart
  let stop := s.selectionEnd
  let selectedText := substring s.editorValue start stop
  if shiftKey then
    setEditorValue
      (substring s.editorValue 0 start ++ outdentSelected selectedText ++
        substringFrom s.editorValue stop) s
  else
    setEditorValue
      (substring s.editorValue 0 start ++ indentSelected selectedText ++
        substringFrom s.editorValue stop) s

/-! ## Lines, as the spec words them -/

/-- The lines of a text, split at line feeds. -/
def splitLines : Str → List Str
  | [] => [[]]
  | c :: rest =>
    if c = 10 then [] :: splitLines rest
    else
      match splitLines rest with
      | [] => [[c]]
      | line :: lines => (c :: line) :: lines

/-- Applies `f` to every line that the selection `start .. stop` touches; `offset` is the
index in the text of the first line of the list. -/
def mapTouchedLines (f : Str → Str) (start stop : Nat) : Nat → List Str → List Str
  | _, [] => []
  | offset, line :: rest =>
    (if start ≤ offset + line.length ∧ offset ≤ stop then f line else line) ::
      mapTouchedLines f start stop (offset + line.length + 1) rest

/-- Number of space characters at the start of a line. -/
def leadingSpaces (line : Str) : Nat := (line.takeWhile (fun c => c == 32)).length

/-- A line without `min 2 k` of its `k` leading spaces. -/
def outdentLine (line : Str) : Str := line.drop (min 2 (leadingSpaces line))

/-- A line with two spaces prepended. -/
def indentLine (line : Str) : Str := 32 :: 32 :: line

/-- Following the spec's words, forward indent: every line touched by the selection gets two
spaces prepended at its beginning. -/
def indentTouchedLines (text : Str) (start stop : Nat) : Str :=
  [10].intercalate (mapTouchedLines indentLine start stop 0 (splitLines text))

/-- Following the spec's words, backward indent: every line touched by the selection loses
`min 2 k` of its `k` leading spaces. -/
def outdentTouchedLines (text : Str) (start stop : Nat) : Str :=
  [10].intercalate (mapTouchedLines outdentLine start stop 0 (splitLines text))

/-- A text cut at its line terminators: segments, each followed by its terminator, and a
last segment. -/
def joinSegments (segments : List (Str × Nat)) (last : Str) : Str :=
  (segments.flatMap fun seg => seg.1 ++ [seg.2]) ++ last

/-- A segment written as `spaces` space characters followed by `body`. -/
structure Indented where
  spaces : Nat
  body : Str
deriving DecidableEq, Repr

/-- The text of the segment. -/
def Indented.text (l : Indented) : Str := List.replicate l.spaces 32 ++ l.body

/-- The segment without `min 2 k` of its `k` spaces. -/
def Indented.outdent (l : Indented) : Indented :=
  { l with spaces := l.spaces - min 2 l.spaces }

/-- The user selects `start .. stop` in the editor. -/
def select (start stop : Nat) (s : State) : State :=
  { s with selectionStart := start, selectionEnd := stop }

/-! ## Scroll mirroring -/

/-- The scroll geometry of a pane, as `syncScroll` reads and writes it. The type `α` stands
for the JavaScript Number: any type with `-`, `/` and `*`, so that everything proved below
holds for IEEE doubles as well as for exact fractions. `scrollTop` holds the value last
assigned to it. -/
structure Pane (α : Type) where
  scrollTop : α
  scrollHeight : α
  clientHeight : α
deriving DecidableEq, Repr

/-- The globals `isScrolling` and `scrollTimeout`; the latter is the deadline of the pending
timeout, `none` when no timeout is pending. -/
structure ScrollGuard where
  isScrolling : Bool
  scrollTimeout : Option Nat
deriving DecidableEq, Repr

/-- `syncScroll(source, target)` called at time `now`: the target after the call and the two
globals after it. -/
def syncScroll {α : Type} [Sub α] [Div α] [Mul α] (now : Nat) (source target : Pane α)
    (g : ScrollGuard) : Pane α × ScrollGuard :=
  if g.isScrolling then (target, g)
  else
    let sourceScrollPercentage := source.scrollTop / (source.scrollHeight - source.clientHeight)
    ({ target with
        scrollTop := sourceScrollPercentage * (target.scrollHeight - target.clientHeight) },
      { isScrolling := true, scrollTimeout := some (now + 50) })

/-- The two panes with the clock and the scroll globals. -/
structure Viewport (α : Type) where
  now : Nat
  editor : Pane α
  preview : Pane α
  guard : ScrollGuard
deriving DecidableEq, Repr

/-- A scroll listener runs at the current time: the editor's listener calls
`syncScroll(editor, preview)`, the preview's calls `syncScroll(preview, editor)`. -/
def scrollCall {α : Type} [Sub α] [Div α] [Mul α] (fromEditor : Bool) (v : Viewport α) :
    Viewport α :=
  if fromEditor then
    { v with
      preview := (syncScroll v.now v.editor v.preview v.guard).1
      guard := (syncScroll v.now v.editor v.preview v.guard).2 }
  else
    { v with
      editor := (syncScroll v.now v.preview v.editor v.guard).1
      guard := (syncScroll v.now v.preview v.editor v.guard).2 }

/-- Time passes for `dt` ms with no other event. A pending scroll timeout whose deadline is
reached runs its callback, which clears `isScrolling`. -/
def scrollWait {α : Type} (dt : Nat) (v : Viewport α) : Viewport α :=
  match v.guard.scrollTimeout with
  | some deadline =>
    if deadline ≤ v.now + dt then
      { v with now := v.now + dt, guard := { isScrolling := false, scrollTimeout := none } }
    else { v with now := v.now + dt }
  | none => { v with now := v.now + dt }

/-- A run of scroll listener calls, each `dt` ms after the previous event. -/
def scrollCalls {α : Type} [Sub α] [Div α] [Mul α] :
    List (Nat × Bool) → Viewport α → Viewport α
  | [], v => v
  | (dt, fromEditor) :: rest, v => scrollCalls rest (scrollCall fromEditor (scrollWait dt v))

/-! ## Restoring and deleting versions -/

/-- What a call leaves behind: the session after it and the `confirm` dialogs it opened, in
order. -/
structure Outcome where
  state : State
  confirms : List Str
deriving DecidableEq, Repr

/-- `restoreVersion(id)` called at time `now`; `answer` is what `confirm` returns if it is
asked. Hiding the version modal is not part of `State`. -/
def restoreVersion (id : Nat) (answer : Bool) (now : Nat) (s : State) : Outcome :=
  let versions := storedVersions s
  match versions.find? (fun v => v.id == id) with
  | some version =>
    if answer then
      { confirms := [js "确定要恢复此版本吗？当前内容将被覆盖。"]
        state := triggerAutoSave now
          { setEditorValue version.content s with
            articleTitle := version.title
            articleAuthor := version.author } }
    else
      { confirms := [js "确定要恢复此版本吗？当前内容将被覆盖。"], state := s }
  | none => { confirms := [], state := s }

/-- `deleteVersion(id)`; `answer` is what `confirm` returns. The closing `showVersions()`
only redraws the version list, which is not part of `State`. -/
def deleteVersion (id : Nat) (answer : Bool) (s : State) : State :=
  if answer then
    let versions := storedVersions s
    let versions := versions.filter (fun v => v.id != id)
    { s with localStorage := { s.localStorage with versions := some versions } }
  else s

/-- An operation on the version store: `saveVersion()` on the Document `d` with the clock
reading `now` and the date text `stamp`, or `deleteVersion(id)` with the answer to its
`confirm`. -/
inductive VersionOp where
  | save (d : Document) (now : Nat) (stamp : Str)
  | delete (id : Nat) (answer : Bool)
deriving DecidableEq, Repr

/-- One operation on the version store. -/
def applyVersionOp (op : VersionOp) (s : State) : State :=
  match op with
  | .save d now stamp => saveVersion now stamp (setDocument d s)
  | .delete id answer => deleteVersion id answer s

/-- A sequence of operations on the version store, first to last. -/
def applyVersionOps : List VersionOp → State → State
  | [], s => s
  | op :: rest, s => applyVersionOps rest (applyVersionOp op s)

/-- The clock readings of the `saveVersion` calls of a sequence, in call order. -/
def saveTimes : List VersionOp → List Nat
  | [] => []
  | .save _ now _ :: rest => now :: saveTimes rest
  | .delete _ _ :: rest => saveTimes rest

/-- The ids of the stored versions, first to last. -/
def storedIds (s : State) : List Nat := (storedVersions s).map fun v => v.id

/-! ## Theorems: version history -/

theorem take_append_take (n : Nat) (a b : List α) :
    (a ++ b.take n).take n = (a ++ b).take n := by
  rw [List.take_append_eq_append_take, List.take_append_eq_append_take, List.take_take]
  congr 2
  omega

theorem storedVersions_saveVersion (now : Nat) (stamp : Str) (s : State) :
    storedVersions (saveVersion now stamp s) =
      if (storedVersions s).length + 1 > 10
      then (newVersion now stamp s :: storedVersions s).dropLast
      else newVersion now stamp s :: storedVersions s := by
  simp [saveVersion, storedVersions]

theorem storedVersions_saveVersion_take (now : Nat) (stamp : Str) (s : State)
    (h : (storedVersions s).length ≤ 10) :
    storedVersions (saveVersion now stamp s) =
      (newVersion now stamp s :: storedVersions s).take 10 := by
  rw [storedVersions_saveVersion]
  split
  · rw [List.dropLast_eq_take]
    congr 1
    simp only [List.length_cons]
    omega
  · rw [List.take_of_length_le]
    simp only [List.length_cons]
    omega

theorem newVersion_setDocument (now : Nat) (stamp : Str) (d : Document) (s : State) :
    newVersion now stamp (setDocument d s) = entryOf (d, now, stamp) := rfl

theorem storedVersions_setDocument (d : Document) (s : State) :
    storedVersions (setDocument d s) = storedVersions s := rfl

theorem storedVersions_saveVersions (calls : List (Document × Nat × Str)) :
    ∀ s : State, (storedVersions s).length ≤ 10 →
      storedVersions (saveVersions calls s) =
        ((calls.map entryOf).reverse ++ storedVersions s).take 10 := by
  induction calls with
  | nil =>
    intro s h
    simp [saveVersions, List.take_of_length_le h]
  | cons c rest ih =>
    intro s h
    obtain ⟨d, now, stamp⟩ := c
    have hstep := storedVersions_saveVersion_take now stamp (setDocument d s)
      (by rw [storedVersions_setDocument]; exact h)
    rw [newVersion_setDocument, storedVersions_setDocument] at hstep
    have hlen : (storedVersions (saveVersion now stamp (setDocument d s))).length ≤ 10 := by
      rw [hstep]; simp
    simp only [saveVersions]
    rw [ih _ hlen, hstep, take_append_take]
    simp

/-- C1: when at most 10 versions are stored, `saveVersion` stores the first 10 elements of
the new entry followed by the previous entries in their previous order; and 11 calls of
`saveVersion` from an empty store leave exactly 10 entries, the 10 most recently inserted
ones (all but the first), newest first. -/
theorem saveVersion_ring (now : Nat) (stamp : Str) (s : State)
    (hs : (storedVersions s).length ≤ 10)
    (s0 : State) (calls : List (Document × Nat × Str))
    (h0 : storedVersions s0 = []) (h11 : calls.length = 11) :
    storedVersions (saveVersion now stamp s) =
        (newVersion now stamp s :: storedVersions s).take 10 ∧
      (storedVersions (saveVersions calls s0)).length = 10 ∧
      storedVersions (saveVersions calls s0) = ((calls.map entryOf).drop 1).reverse := by
  refine ⟨storedVersions_saveVersion_take now stamp s hs, ?_⟩
  have hrun := storedVersions_saveVersions calls s0 (by simp [h0])
  rw [h0, List.append_nil] at hrun
  have hrev : ((calls.map entryOf).reverse).take 10 = ((calls.map entryOf).drop 1).reverse := by
    rw [List.reverse_drop]
    simp [h11]
  rw [hrun, hrev]
  simp [h11]

/-- Witness of `saveVersion_ring`: eleven saves of eleven distinct texts. -/
theorem saveVersion_ring_witness :
    storedVersions (saveVersion 7 [] initialState) =
        (newVersion 7 [] initialState :: storedVersions initialState).take 10 ∧
      (storedVersions (saveVersions
        ((List.range 11).map fun i => (⟨[i], [], []⟩, i, [])) initialState)).length = 10 ∧
      storedVersions (saveVersions
        ((List.range 11).map fun i => (⟨[i], [], []⟩, i, [])) initialState) =
        ((((List.range 11).map fun i => ((⟨[i], [], []⟩ : Document), i, ([] : Str))).map
          entryOf).drop 1).reverse :=
  saveVersion_ring 7 [] initialState (by decide) initialState
    ((List.range 11).map fun i => (⟨[i], [], []⟩, i, [])) (by decide) (by decide)

/-! ## Theorems: autosave -/

theorem wait_of_pending_later (dt : Nat) (w : Timed) (deadline : Nat)
    (hp : w.state.autoSaveTimer = some deadline) (hlt : w.now + dt < deadline) :
    wait dt w = { w with now := w.now + dt } := by
  unfold wait
  rw [hp]
  simp only
  rw [if_neg (by omega)]

theorem wait_of_pending_due (dt : Nat) (w : Timed) (deadline : Nat)
    (hp : w.state.autoSaveTimer = some deadline) (hle : deadline ≤ w.now + dt) :
    wait dt w =
      { now := w.now + dt
        state := saveContent { w.state with autoSaveTimer := none }
        saves := w.saves ++ [(deadline, document w.state)] } := by
  unfold wait
  rw [hp]
  simp only
  rw [if_pos hle]

theorem wait_of_idle (dt : Nat) (w : Timed) (hp : w.state.autoSaveTimer = none) :
    wait dt w = { w with now := w.now + dt } := by
  unfold wait
  rw [hp]

theorem saveContent_autoSaveTimer (s : State) :
    (saveContent s).autoSaveTimer = s.autoSaveTimer := by
  unfold saveContent
  simp only
  split <;> rfl

/-- During a run of calls less than 1000 ms apart the timeout armed by the latest call stays
pending and `saveContent` does not run. -/
theorem editCalls_pending (rest : List (Nat × Document)) :
    ∀ w : Timed, w.state.autoSaveTimer = some (w.now + 1000) →
      (∀ c ∈ rest, c.1 < 1000) →
      (editCalls rest w).state.autoSaveTimer = some ((editCalls rest w).now + 1000) ∧
      (editCalls rest w).saves = w.saves ∧
      document (editCalls rest w).state =
        (rest.map Prod.snd).getLastD (document w.state) ∧
      (editCalls rest w).now = w.now + (rest.map Prod.fst).sum := by
  induction rest with
  | nil =>
    intro w hp _
    simp [editCalls, hp]
  | cons c rest ih =>
    intro w hp hgap
    obtain ⟨dt, d⟩ := c
    have hdt : dt < 1000 := hgap (dt, d) (List.mem_cons_self _ _)
    have hrest : ∀ c ∈ rest, c.1 < 1000 := fun c hc => hgap c (List.mem_cons_of_mem _ hc)
    have hw : wait dt w = { w with now := w.now + dt } :=
      wait_of_pending_later dt w _ hp (by omega)
    obtain ⟨h1, h2, h3, h4⟩ := ih (editCall d (wait dt w))
      (by simp [editCall, triggerAutoSave]) hrest
    simp only [editCalls]
    refine ⟨h1, ?_, ?_, ?_⟩
    · rw [h2, hw]; rfl
    · rw [h3, List.map_cons, List.getLastD_cons]
      rfl
    · rw [h4, hw]
      simp [editCall]
      omega

/-- The state after `saveContent` when the fingerprint differs from `currentHash`. -/
theorem saveContent_of_ne (s : State)
    (h : fingerprint (document s) ≠ s.currentHash) :
    saveContent s =
      { s with
        localStorage := { s.localStorage with
          markdownContent := some s.editorValue
          articleTitle := some s.articleTitle
          articleAuthor := some s.articleAuthor
          contentHash := some (fingerprint (document s)) }
        currentHash := fingerprint (document s)
        saveStatus := js "已自动保存" } := by
  have h' : simpleHash (s.editorValue ++ s.articleTitle ++ s.articleAuthor) ≠ s.currentHash := h
  unfold saveContent
  simp only
  rw [if_pos h']
  rfl

/-- The state after `saveContent` when the fingerprint equals `currentHash`. -/
theorem saveContent_of_eq (s : State)
    (h : fingerprint (document s) = s.currentHash) :
    saveContent s = { s with saveStatus := js "已自动保存" } := by
  have h' : simpleHash (s.editorValue ++ s.articleTitle ++ s.articleAuthor) = s.currentHash := h
  unfold saveContent
  simp only
  rw [if_neg (not_not.mpr h')]

theorem saveContent_currentHash (s : State) :
    (saveContent s).currentHash = fingerprint (document s) := by
  by_cases h : fingerprint (document s) = s.currentHash
  · rw [saveContent_of_eq s h]
    exact h.symm
  · rw [saveContent_of_ne s h]

theorem document_saveContent (s : State) : document (saveContent s) = document s := by
  by_cases h : fingerprint (document s) = s.currentHash
  · rw [saveContent_of_eq s h]
    rfl
  · rw [saveContent_of_ne s h]
    rfl

/-- During a run of calls less than 1000 ms apart, the session is the one before the run
with the Document of the latest edit, the saving text and the timeout of the latest call. -/
theorem editCalls_state (rest : List (Nat × Document)) :
    ∀ (w : Timed) (d : Document) (s0 : State),
      w.state = triggerAutoSave w.now (setDocument d s0) →
      (∀ c ∈ rest, c.1 < 1000) →
      (editCalls rest w).state =
        triggerAutoSave (editCalls rest w).now
          (setDocument ((rest.map Prod.snd).getLastD d) s0) := by
  induction rest with
  | nil =>
    intro w d s0 hw _
    simpa [editCalls] using hw
  | cons c rest ih =>
    intro w d s0 hw hgap
    obtain ⟨dt, d1⟩ := c
    have hdt : dt < 1000 := hgap (dt, d1) (List.mem_cons_self _ _)
    have hrest : ∀ c ∈ rest, c.1 < 1000 := fun c hc => hgap c (List.mem_cons_of_mem _ hc)
    have hp : w.state.autoSaveTimer = some (w.now + 1000) := by rw [hw]; rfl
    have hwait : wait dt w = { w with now := w.now + dt } :=
      wait_of_pending_later dt w _ hp (by omega)
    have hcall : (editCall d1 (wait dt w)).state =
        triggerAutoSave (editCall d1 (wait dt w)).now (setDocument d1 s0) := by
      rw [hwait]
      simp only [editCall]
      rw [hw]
      rfl
    simp only [editCalls, List.map_cons, List.getLastD_cons]
    exact ih (editCall d1 (wait dt w)) d1 s0 hcall hrest

/-- C2: for a non-empty run of `triggerAutoSave` calls, each less than 1000 ms after the
previous one and with no other event, `saveContent` does not run before 1000 ms have passed
since the last call, runs exactly once, at the last call's time plus 1000 ms, and leaves no
timeout pending, so that no later wait runs it again. That run works on the Document of the
last edit: the session after it is `saveContent` applied to the session before the calls
holding the last edit's Document, so `currentHash` is the fingerprint of that Document, the
status is the saved text, and whenever that fingerprint differs from the `currentHash`
before the calls, the persisted text, title, author and fingerprint are those of the last
edit. -/
theorem autosave_coalesces (w : Timed) (d0 : Document) (rest : List (Nat × Document))
    (hgap : ∀ c ∈ rest, c.1 < 1000) (early late more : Nat)
    (hearly : early < 1000) (hlate : 1000 ≤ late) :
    (editCalls rest (editCall d0 w)).now = w.now + (rest.map Prod.fst).sum ∧
      (wait early (editCalls rest (editCall d0 w))).saves = w.saves ∧
      (wait late (editCalls rest (editCall d0 w))).saves =
        w.saves ++ [((editCalls rest (editCall d0 w)).now + 1000,
          (rest.map Prod.snd).getLastD d0)] ∧
      (wait late (editCalls rest (editCall d0 w))).state.autoSaveTimer = none ∧
      (wait more (wait late (editCalls rest (editCall d0 w)))).saves =
        (wait late (editCalls rest (editCall d0 w))).saves ∧
      (wait late (editCalls rest (editCall d0 w))).state =
        saveContent
          { setDocument ((rest.map Prod.snd).getLastD d0) w.state with
            saveStatus := js "保存中...", autoSaveTimer := none } ∧
      document (wait late (editCalls rest (editCall d0 w))).state =
        (rest.map Prod.snd).getLastD d0 ∧
      (wait late (editCalls rest (editCall d0 w))).state.currentHash =
        fingerprint ((rest.map Prod.snd).getLastD d0) ∧
      (wait late (editCalls rest (editCall d0 w))).state.saveStatus = js "已自动保存" ∧
      (fingerprint ((rest.map Prod.snd).getLastD d0) ≠ w.state.currentHash →
        Committed ((rest.map Prod.snd).getLastD d0)
          (wait late (editCalls rest (editCall d0 w))).state) := by
  obtain ⟨h1, h2, h3, h4⟩ := editCalls_pending rest (editCall d0 w)
    (by simp [editCall, triggerAutoSave]) hgap
  have hdoc : document (editCall d0 w).state = d0 := rfl
  rw [hdoc] at h3
  have hsaves : (editCall d0 w).saves = w.saves := rfl
  have hnow : (editCall d0 w).now = w.now := rfl
  rw [hsaves] at h2
  rw [hnow] at h4
  have hdue := wait_of_pending_due late _ _ h1 (by omega)
  have hidle : (wait late (editCalls rest (editCall d0 w))).state.autoSaveTimer = none := by
    rw [hdue]
    simp only
    rw [saveContent_autoSaveTimer]
  have hrun := editCalls_state rest (editCall d0 w) d0 w.state rfl hgap
  have hstate : (wait late (editCalls rest (editCall d0 w))).state =
      saveContent
        { setDocument ((rest.map Prod.snd).getLastD d0) w.state with
          saveStatus := js "保存中...", autoSaveTimer := none } := by
    rw [hdue]
    simp only
    rw [hrun]
    rfl
  have hlast : document
      { setDocument ((rest.map Prod.snd).getLastD d0) w.state with
        saveStatus := js "保存中...", autoSaveTimer := none } =
      (rest.map Prod.snd).getLastD d0 := rfl
  refine ⟨h4, ?_, ?_, hidle, ?_, hstate, ?_, ?_, ?_, ?_⟩
  · rw [wait_of_pending_later early _ _ h1 (by omega)]
    exact h2
  · rw [hdue]
    simp only
    rw [h2, h3]
  · rw [wait_of_idle more _ hidle]
  · rw [hstate, document_saveContent, hlast]
  · rw [hstate, saveContent_currentHash, hlast]
  · rw [hstate]
    by_cases h : fingerprint (document
        { setDocument ((rest.map Prod.snd).getLastD d0) w.state with
          saveStatus := js "保存中...", autoSaveTimer := none }) =
        ({ setDocument ((rest.map Prod.snd).getLastD d0) w.state with
          saveStatus := js "保存中...", autoSaveTimer := none } : State).currentHash
    · rw [saveContent_of_eq _ h]
    · rw [saveContent_of_ne _ h]
  · intro hne
    rw [hstate]
    have h : fingerprint (document
        { setDocument ((rest.map Prod.snd).getLastD d0) w.state with
          saveStatus := js "保存中...", autoSaveTimer := none }) ≠
        ({ setDocument ((rest.map Prod.snd).getLastD d0) w.state with
          saveStatus := js "保存中...", autoSaveTimer := none } : State).currentHash := by
      rw [hlast]
      exact hne
    rw [saveContent_of_ne _ h, hlast]
    exact ⟨rfl, rfl, rfl, rfl, rfl⟩

/-- Witness of `autosave_coalesces`: three edits 400 ms and 999 ms apart, starting at time
5 in a new session; the one run of `saveContent` is at 2404 and persists the last text. -/
theorem autosave_coalesces_witness :
    (∀ c ∈ [(400, (⟨[98], [], []⟩ : Document)), (999, ⟨[99], [], []⟩)], c.1 < 1000) ∧
      (500 < 1000 ∧ 1000 ≤ 1000) ∧
      (wait 1000 (editCalls [(400, ⟨[98], [], []⟩), (999, ⟨[99], [], []⟩)]
        (editCall ⟨[97], [], []⟩ ⟨5, initialState, []⟩))).saves =
        [(2404, ⟨[99], [], []⟩)] ∧
      (wait 1000 (editCalls [(400, ⟨[98], [], []⟩), (999, ⟨[99], [], []⟩)]
        (editCall ⟨[97], [], []⟩ ⟨5, initialState, []⟩))).state.localStorage.markdownContent =
        some [99] :=
  ⟨by decide, by decide,
    (autosave_coalesces ⟨5, initialState, []⟩ ⟨[97], [], []⟩
      [(400, ⟨[98], [], []⟩), (999, ⟨[99], [], []⟩)] (by decide) 500 1000 0
      (by decide) (by decide)).2.2.1,
    ((autosave_coalesces ⟨5, initialState, []⟩ ⟨[97], [], []⟩
      [(400, ⟨[98], [], []⟩), (999, ⟨[99], [], []⟩)] (by decide) 500 1000 0
      (by decide) (by decide)).2.2.2.2.2.2.2.2.2 (by decide)).1⟩

/-- C3, as stated, fails: with the last committed Document (text `ab`, title `c`) persisted
and the current Document (text `a`, title `bc`), both have the fingerprint of `abc`, so
`saveContent` writes nothing and the persisted text stays `ab`. -/
theorem saveContent_loses_regrouped_edit :
    ¬ ∀ (s : State) (d : Document), Committed d s →
      (saveContent s).localStorage.markdownContent = some s.editorValue ∧
      (saveContent s).localStorage.articleTitle = some s.articleTitle ∧
      (saveContent s).localStorage.articleAuthor = some s.articleAuthor := by
  intro h
  have hc : Committed ⟨js "ab", js "c", []⟩ regroupedState := ⟨rfl, rfl, rfl, rfl, rfl⟩
  have hfp : fingerprint (document regroupedState) = regroupedState.currentHash :=
    congrArg simpleHash (by decide)
  have h1 := (h regroupedState _ hc).1
  rw [saveContent_of_eq regroupedState hfp] at h1
  revert h1
  decide

/-- C3, amended: whenever the fingerprint of the current Document differs from `currentHash`
(in the states of the claim, the fingerprint of the last committed Document), after
`saveContent` the persisted text, title and author are those of the current Document, and
the persisted fingerprint and `currentHash` are its fingerprint. -/
theorem saveContent_persists (s : State)
    (h : fingerprint (document s) ≠ s.currentHash) :
    Committed (document s) (saveContent s) := by
  rw [saveContent_of_ne s h]
  exact ⟨rfl, rfl, rfl, rfl, rfl⟩

/-- Witness of `saveContent_persists`: the first save of the text `a` in a new session. -/
theorem saveContent_persists_witness :
    fingerprint (document (setDocument ⟨js "a", [], []⟩ initialState)) ≠
        (setDocument ⟨js "a", [], []⟩ initialState).currentHash ∧
      Committed (document (setDocument ⟨js "a", [], []⟩ initialState))
        (saveContent (setDocument ⟨js "a", [], []⟩ initialState)) :=
  ⟨by decide, saveContent_persists (setDocument ⟨js "a", [], []⟩ initialState) (by decide)⟩

/-- C4: when `saveContent` runs twice in a row on an unchanged Document, the second run
leaves `localStorage` and `currentHash` as the first run left them, and the save status after
it is the saved text. -/
theorem saveContent_twice (s : State) :
    (saveContent (saveContent s)).localStorage = (saveContent s).localStorage ∧
      (saveContent (saveContent s)).currentHash = (saveContent s).currentHash ∧
      (saveContent (saveContent s)).saveStatus = js "已自动保存" := by
  have h : fingerprint (document (saveContent s)) = (saveContent s).currentHash := by
    rw [document_saveContent, saveContent_currentHash]
  rw [saveContent_of_eq (saveContent s) h]
  exact ⟨rfl, rfl, rfl⟩

/-! ## Theorems: toolbar actions -/

theorem substring_zero (v : Str) (a : Nat) (ha : a ≤ v.length) :
    substring v 0 a = v.take a := by
  simp [substring, Nat.min_eq_left ha]

theorem substring_of_le (v : Str) (a b : Nat) (hab : a ≤ b) (hb : b ≤ v.length) :
    substring v a b = (v.drop a).take (b - a) := by
  have ha : a ≤ v.length := Nat.le_trans hab hb
  simp [substring, Nat.min_eq_left ha, Nat.min_eq_left hb, Nat.min_eq_left hab,
    Nat.max_eq_right hab]

theorem substringFrom_of_le (v : Str) (b : Nat) (hb : b ≤ v.length) :
    substringFrom v b = v.drop b := by
  simp [substringFrom, Nat.min_eq_left hb]

theorem editorValue_setEditorValue (v : Str) (s : State) :
    (setEditorValue v s).editorValue = v := by
  unfold setEditorValue
  split
  · next h => exact h.symm
  · rfl

theorem editorValue_triggerAutoSave (now : Nat) (s : State) :
    (triggerAutoSave now s).editorValue = s.editorValue := rfl

/-- The text after `wrapSelection` for an action of the table that is none of `link`,
`image`, `table`. -/
theorem wrapSelection_table_entry (action : String) (m : Markup) (answer : Option Str)
    (now : Nat) (s : State) (hm : markdownSyntax action = some m)
    (hl : action ≠ "link") (hi : action ≠ "image") (ht : action ≠ "table") :
    (wrapSelection action answer now s).editorValue =
      substring s.editorValue 0 s.selectionStart ++
        (m.pfx ++ substring s.editorValue s.selectionStart s.selectionEnd ++ m.sfx) ++
        substringFrom s.editorValue s.selectionEnd := by
  unfold wrapSelection
  rw [hm]
  simp only [if_neg hl, if_neg hi, if_neg ht]
  rw [editorValue_triggerAutoSave, editorValue_setEditorValue]

theorem staticKinds_entry :
    ∀ action ∈ staticKinds, action ≠ "link" ∧ action ≠ "image" ∧ action ≠ "table" ∧
      (markdownSyntax action).isSome = true := by
  decide

/-- C5: for every style kind of the static table, every text and every selection
`start ≤ stop` within the text, `wrapSelection` yields
`text[0..start] + prefix + text[start..stop] + suffix + text[stop..]`; bold on `hello`
selected in full gives `**hello**`, and bold on that span selected in full gives
`****hello****`. -/
theorem wrapSelection_static (action : String) (answer : Option Str) (now : Nat) (s : State)
    (hk : action ∈ staticKinds) (hse : s.selectionStart ≤ s.selectionEnd)
    (hlen : s.selectionEnd ≤ s.editorValue.length) :
    (∃ m, markdownSyntax action = some m ∧
        (wrapSelection action answer now s).editorValue =
          s.editorValue.take s.selectionStart ++ m.pfx ++
            (s.editorValue.drop s.selectionStart).take (s.selectionEnd - s.selectionStart) ++
            m.sfx ++ s.editorValue.drop s.selectionEnd) ∧
      (wrapSelection "bold" answer now (editing (js "hello") 0 5)).editorValue =
        js "**hello**" ∧
      (wrapSelection "bold" answer now (editing (js "**hello**") 0 9)).editorValue =
        js "****hello****" := by
  obtain ⟨hl, hi, ht, hsome⟩ := staticKinds_entry action hk
  obtain ⟨m, hm⟩ := Option.isSome_iff_exists.mp hsome
  refine ⟨⟨m, hm, ?_⟩, ?_, ?_⟩
  · rw [wrapSelection_table_entry action m answer now s hm hl hi ht,
      substring_zero _ _ (Nat.le_trans hse hlen), substring_of_le _ _ _ hse hlen,
      substringFrom_of_le _ _ hlen]
    simp only [List.append_assoc]
  · rw [wrapSelection_table_entry "bold" ⟨js "**", js "**"⟩ answer now _ rfl
      (by decide) (by decide) (by decide)]
    decide
  · rw [wrapSelection_table_entry "bold" ⟨js "**", js "**"⟩ answer now _ rfl
      (by decide) (by decide) (by decide)]
    decide

/-- Witness of `wrapSelection_static`: italic on `b` selected inside `abc`. -/
theorem wrapSelection_static_witness :
    (wrapSelection "italic" none 0 (editing (js "abc") 1 2)).editorValue = js "a*b*c" := by
  obtain ⟨⟨m, hm, h⟩, _⟩ := wrapSelection_static "italic" none 0 (editing (js "abc") 1 2)
    (by decide) (by decide) (by decide)
  have hm2 : m = ⟨js "*", js "*"⟩ := by
    have h2 : markdownSyntax "italic" = some ⟨js "*", js "*"⟩ := rfl
    rw [h2] at hm
    exact (Option.some.inj hm).symm
  subst hm2
  rw [h]
  decide

/-- C6, as stated, fails: bold with the cursor between `a` and `b` gives `a****b`, which is
not `a**` + placeholder + `**b` for any non-empty placeholder. -/
theorem wrapSelection_bold_no_placeholder :
    (wrapSelection "bold" none 0 (editing (js "ab") 1 1)).editorValue = js "a****b" ∧
      ¬ ∃ placeholder : Str, placeholder ≠ [] ∧
        (wrapSelection "bold" none 0 (editing (js "ab") 1 1)).editorValue =
          js "a" ++ js "**" ++ placeholder ++ js "**" ++ js "b" := by
  have hv : (wrapSelection "bold" none 0 (editing (js "ab") 1 1)).editorValue = js "a****b" := by
    decide
  refine ⟨hv, ?_⟩
  rintro ⟨p, hp, h⟩
  rw [hv] at h
  have hlen := congrArg List.length h
  have h6 : (js "a****b").length = 6 := by decide
  have h1 : (js "a").length = 1 := by decide
  have h2 : (js "**").length = 2 := by decide
  have h3 : (js "b").length = 1 := by decide
  simp only [List.length_append, h6, h1, h2, h3] at hlen
  have : p.length = 0 := by omega
  exact hp (List.length_eq_zero.mp this)

/-- C6, amended: with an empty selection at `c`, a style kind of the static table inserts
its prefix directly followed by its suffix, with no placeholder; the link action, given a
non-empty address, inserts `[链接文字](address)`, and leaves the text unchanged when the
prompt is cancelled or left empty. -/
theorem wrapSelection_empty_selection (action : String) (answer : Option Str) (now : Nat)
    (s : State) (url : Str) (hk : action ∈ staticKinds)
    (hc : s.selectionEnd = s.selectionStart) (hlen : s.selectionStart ≤ s.editorValue.length)
    (hurl : url ≠ []) :
    (∃ m, markdownSyntax action = some m ∧
        (wrapSelection action answer now s).editorValue =
          s.editorValue.take s.selectionStart ++ m.pfx ++ m.sfx ++
            s.editorValue.drop s.selectionStart) ∧
      (wrapSelection "link" (some url) now s).editorValue =
        s.editorValue.take s.selectionStart ++ js "[" ++ js "链接文字" ++ js "](" ++ url ++
          js ")" ++ s.editorValue.drop s.selectionStart ∧
      (wrapSelection "link" none now s).editorValue = s.editorValue ∧
      (wrapSelection "link" (some []) now s).editorValue = s.editorValue := by
  have hsel : substring s.editorValue s.selectionStart s.selectionStart = [] := by
    rw [substring_of_le _ _ _ (Nat.le_refl _) hlen]
    simp
  obtain ⟨hl, hi, ht, hsome⟩ := staticKinds_entry action hk
  obtain ⟨m, hm⟩ := Option.isSome_iff_exists.mp hsome
  refine ⟨⟨m, hm, ?_⟩, ?_, ?_, ?_⟩
  · rw [wrapSelection_table_entry action m answer now s hm hl hi ht, hc, hsel,
      substring_zero _ _ hlen, substringFrom_of_le _ _ hlen]
    simp only [List.append_nil, List.append_assoc]
  · have hm : markdownSyntax "link" = some ⟨js "[", js "](url)"⟩ := rfl
    unfold wrapSelection
    rw [hm]
    simp only [if_true, if_neg hurl]
    rw [editorValue_triggerAutoSave, editorValue_setEditorValue, hc, hsel,
      substring_zero _ _ hlen, substringFrom_of_le _ _ hlen]
    have ho : orElse [] (js "链接文字") = js "链接文字" := rfl
    rw [ho]
    simp only [List.append_assoc]
  · rfl
  · rfl

/-- Witness of `wrapSelection_empty_selection`: underline and a link at the cursor between
`a` and `b`. -/
theorem wrapSelection_empty_selection_witness :
    (∃ m, markdownSyntax "underline" = some m ∧
        (wrapSelection "underline" none 0 (editing (js "ab") 1 1)).editorValue =
          (editing (js "ab") 1 1).editorValue.take 1 ++ m.pfx ++ m.sfx ++
            (editing (js "ab") 1 1).editorValue.drop 1) ∧
      (wrapSelection "link" (some (js "x.y")) 0 (editing (js "ab") 1 1)).editorValue =
        js "a[链接文字](x.y)b" := by
  have h := wrapSelection_empty_selection "underline" none 0 (editing (js "ab") 1 1)
    (js "x.y") (by decide) (by decide) (by decide) (by decide)
  refine ⟨h.1, ?_⟩
  rw [h.2.1]
  decide

/-- C7: `wrapSelection` with the action `table` returns at the `!syntax` guard, the table
`markdownSyntax` having no `table` key: the session is unchanged and no template is
inserted. With the action `divider` and a selection `start ≤ stop` within the text, the
fixed text `\n---\n` is inserted at `start` and the rest of the text, the selected
characters included, is kept. -/
theorem wrapSelection_table_divider (answer : Option Str) (now : Nat) (s : State)
    (hse : s.selectionStart ≤ s.selectionEnd) (hlen : s.selectionEnd ≤ s.editorValue.length) :
    wrapSelection "table" answer now s = s ∧
      (wrapSelection "divider" answer now s).editorValue =
        s.editorValue.take s.selectionStart ++ js "\n---\n" ++
          s.editorValue.drop s.selectionStart := by
  refine ⟨rfl, ?_⟩
  rw [wrapSelection_table_entry "divider" ⟨js "\n---\n", js ""⟩ answer now s rfl
      (by decide) (by decide) (by decide),
    substring_zero _ _ (Nat.le_trans hse hlen), substring_of_le _ _ _ hse hlen,
    substringFrom_of_le _ _ hlen]
  have he : js "" = [] := rfl
  simp only [he, List.append_nil, List.append_assoc]
  congr 2
  have h := List.take_append_drop (s.selectionEnd - s.selectionStart)
    (s.editorValue.drop s.selectionStart)
  rw [List.drop_drop] at h
  have hadd : s.selectionStart + (s.selectionEnd - s.selectionStart) = s.selectionEnd := by
    omega
  rw [hadd] at h
  exact h

/-- Witness of `wrapSelection_table_divider`: the cursor between `a` and `b`. -/
theorem wrapSelection_table_divider_witness :
    wrapSelection "table" none 0 (editing (js "ab") 1 1) = editing (js "ab") 1 1 ∧
      (wrapSelection "divider" none 0 (editing (js "ab") 1 1)).editorValue =
        (editing (js "ab") 1 1).editorValue.take 1 ++ js "\n---\n" ++
          (editing (js "ab") 1 1).editorValue.drop 1 :=
  wrapSelection_table_divider none 0 (editing (js "ab") 1 1) (by decide) (by decide)

/-! ## Theorems: Tab key -/

theorem indentFrom_false_segment (seg : Str) (t : Nat) (more : Str)
    (hseg : ∀ c ∈ seg, isLineTerminator c = false) :
    indentFrom false (seg ++ t :: more) = seg ++ t :: indentFrom (isLineTerminator t) more := by
  induction seg with
  | nil => simp [indentFrom]
  | cons c seg ih =>
    have hc : isLineTerminator c = false := hseg c (List.mem_cons_self _ _)
    have ih2 := ih fun x hx => hseg x (List.mem_cons_of_mem _ hx)
    simp [indentFrom, hc, ih2]

theorem indentFrom_true_segment (seg : Str) (t : Nat) (more : Str)
    (hseg : ∀ c ∈ seg, isLineTerminator c = false) :
    indentFrom true (seg ++ t :: more) =
      indentLine seg ++ t :: indentFrom (isLineTerminator t) more := by
  cases seg with
  | nil => simp [indentFrom, indentLine]
  | cons c seg =>
    have hc : isLineTerminator c = false := hseg c (List.mem_cons_self _ _)
    have h2 := indentFrom_false_segment seg t more fun x hx => hseg x (List.mem_cons_of_mem _ hx)
    simp [indentFrom, indentLine, hc, h2]

theorem indentFrom_false_last (last : Str) (hlast : ∀ c ∈ last, isLineTerminator c = false) :
    indentFrom false last = last := by
  induction last with
  | nil => simp [indentFrom]
  | cons c last ih =>
    have hc : isLineTerminator c = false := hlast c (List.mem_cons_self _ _)
    have ih2 := ih fun x hx => hlast x (List.mem_cons_of_mem _ hx)
    simp [indentFrom, hc, ih2]

theorem indentFrom_true_last (last : Str) (hlast : ∀ c ∈ last, isLineTerminator c = false) :
    indentFrom true last = indentLine last := by
  cases last with
  | nil => simp [indentFrom, indentLine]
  | cons c last =>
    have hc : isLineTerminator c = false := hlast c (List.mem_cons_self _ _)
    have h2 := indentFrom_false_last last fun x hx => hlast x (List.mem_cons_of_mem _ hx)
    simp [indentFrom, indentLine, hc, h2]

theorem joinSegments_cons (g : Str × Nat) (segments : List (Str × Nat)) (last : Str) :
    joinSegments (g :: segments) last = g.1 ++ g.2 :: joinSegments segments last := by
  simp [joinSegments]

/-- The replacement `/^/gm` by two spaces, segment by segment. -/
theorem indentSelected_joinSegments (segments : List (Str × Nat)) (last : Str)
    (hsegs : ∀ g ∈ segments, isLineTerminator g.2 = true ∧
      ∀ c ∈ g.1, isLineTerminator c = false)
    (hlast : ∀ c ∈ last, isLineTerminator c = false) :
    indentSelected (joinSegments segments last) =
      joinSegments (segments.map fun g => (indentLine g.1, g.2)) (indentLine last) := by
  unfold indentSelected
  induction segments with
  | nil => simpa [joinSegments] using indentFrom_true_last last hlast
  | cons g segments ih =>
    obtain ⟨ht, hg⟩ := hsegs g (List.mem_cons_self _ _)
    have ih2 := ih fun x hx => hsegs x (List.mem_cons_of_mem _ hx)
    rw [List.map_cons, joinSegments_cons, joinSegments_cons,
      indentFrom_true_segment g.1 g.2 _ hg, ht, ih2]

theorem editorValue_handleKeyDown_indent (s : State)
    (hse : s.selectionStart ≤ s.selectionEnd) (hlen : s.selectionEnd ≤ s.editorValue.length) :
    (handleKeyDown false s).editorValue =
      s.editorValue.take s.selectionStart ++
        indentSelected
          ((s.editorValue.drop s.selectionStart).take (s.selectionEnd - s.selectionStart)) ++
        s.editorValue.drop s.selectionEnd := by
  simp only [handleKeyDown, Bool.false_eq_true, if_false]
  rw [editorValue_setEditorValue, substring_zero _ _ (Nat.le_trans hse hlen),
    substring_of_le _ _ _ hse hlen, substringFrom_of_le _ _ hlen]

theorem editorValue_handleKeyDown_outdent (s : State)
    (hse : s.selectionStart ≤ s.selectionEnd) (hlen : s.selectionEnd ≤ s.editorValue.length) :
    (handleKeyDown true s).editorValue =
      s.editorValue.take s.selectionStart ++
        outdentSelected
          ((s.editorValue.drop s.selectionStart).take (s.selectionEnd - s.selectionStart)) ++
        s.editorValue.drop s.selectionEnd := by
  simp only [handleKeyDown, if_true]
  rw [editorValue_setEditorValue, substring_zero _ _ (Nat.le_trans hse hlen),
    substring_of_le _ _ _ hse hlen, substringFrom_of_le _ _ hlen]

/-- C8, as stated, fails: Tab with `b` selected inside the one-line text `abc` puts the two
spaces before `b`, in the middle of the line, where the claim has them at the beginning of
the line. -/
theorem handleKeyDown_indent_mid_line :
    (handleKeyDown false (editing (js "abc") 1 2)).editorValue = js "a  bc" ∧
      indentTouchedLines (js "abc") 1 2 = js "  abc" ∧
      ¬ ∀ (text : Str) (start stop : Nat), start ≤ stop → stop ≤ text.length →
        (handleKeyDown false (editing text start stop)).editorValue =
          indentTouchedLines text start stop := by
  refine ⟨by decide, by decide, ?_⟩
  intro h
  have h1 := h (js "abc") 1 2 (by decide) (by decide)
  revert h1
  decide

/-- C8, amended: Tab without Shift acts on the selected text alone. With the selected text
cut at its line terminators (LF, CR, LS, PS) into segments, the first of which starts at
`selectionStart`, every segment gets two spaces prepended, the one after a final terminator
included, and every other character of the text is unchanged. -/
theorem handleKeyDown_indent (s : State) (segments : List (Str × Nat)) (last : Str)
    (hse : s.selectionStart ≤ s.selectionEnd) (hlen : s.selectionEnd ≤ s.editorValue.length)
    (hsel : (s.editorValue.drop s.selectionStart).take (s.selectionEnd - s.selectionStart) =
      joinSegments segments last)
    (hsegs : ∀ g ∈ segments, isLineTerminator g.2 = true ∧
      ∀ c ∈ g.1, isLineTerminator c = false)
    (hlast : ∀ c ∈ last, isLineTerminator c = false) :
    (handleKeyDown false s).editorValue =
      s.editorValue.take s.selectionStart ++
        joinSegments (segments.map fun g => (indentLine g.1, g.2)) (indentLine last) ++
        s.editorValue.drop s.selectionEnd := by
  rw [editorValue_handleKeyDown_indent s hse hlen, hsel,
    indentSelected_joinSegments segments last hsegs hlast]

/-- Witness of `handleKeyDown_indent`: in `xab\ncd\nef`, the selection from `a` to `d`. -/
theorem handleKeyDown_indent_witness :
    (handleKeyDown false (editing (js "xab\ncd\nef") 1 6)).editorValue =
      js "x  ab\n  cd\nef" := by
  have h := handleKeyDown_indent (editing (js "xab\ncd\nef") 1 6) [(js "ab", 10)] (js "cd")
    (by decide) (by decide) (by decide) (by decide) (by decide)
  rw [h]
  decide

theorem isWhiteSpace_of_isLineTerminator (c : Nat) (h : isLineTerminator c = true) :
    isWhiteSpace c = true := by
  simp only [isLineTerminator, Bool.or_eq_true, beq_iff_eq] at h
  rcases h with ((h | h) | h) | h <;> subst h <;> decide

theorem isLineTerminator_of_not_isWhiteSpace (c : Nat) (h : isWhiteSpace c = false) :
    isLineTerminator c = false := by
  cases hl : isLineTerminator c with
  | false => rfl
  | true => rw [isWhiteSpace_of_isLineTerminator c hl] at h; cases h

theorem takeWhile_spaces_append (k : Nat) (rest : Str)
    (hrest : ∀ c, rest.head? = some c → isWhiteSpace c = false) :
    (List.replicate k 32 ++ rest).takeWhile isWhiteSpace = List.replicate k 32 := by
  have hpos : ∀ a ∈ List.replicate k 32, isWhiteSpace a = true := by
    intro a ha
    rw [List.eq_of_mem_replicate ha]
    decide
  rw [List.takeWhile_append_of_pos hpos]
  cases rest with
  | nil => simp
  | cons c tail =>
    have hc := hrest c rfl
    simp [hc]

theorem dropWhile_spaces_append (k : Nat) (rest : Str)
    (hrest : ∀ c, rest.head? = some c → isWhiteSpace c = false) :
    (List.replicate k 32 ++ rest).dropWhile isWhiteSpace = rest := by
  have hpos : ∀ a ∈ List.replicate k 32, isWhiteSpace a = true := by
    intro a ha
    rw [List.eq_of_mem_replicate ha]
    decide
  rw [List.dropWhile_append_of_pos hpos]
  cases rest with
  | nil => simp
  | cons c tail =>
    have hc := hrest c rfl
    simp [hc]

theorem outdentFrom_nil (fuel : Nat) (lineStart : Bool) : outdentFrom fuel lineStart [] = [] := by
  cases fuel with
  | zero => rfl
  | succ f => cases lineStart <;> simp [outdentFrom]

theorem outdentFrom_false_cons (f : Nat) (c : Nat) (tail : Str) :
    outdentFrom (f + 1) false (c :: tail) = c :: outdentFrom f (isLineTerminator c) tail := by
  simp [outdentFrom]

/-- Away from a line start, a segment and its terminator are copied. -/
theorem outdentFrom_false_segment (body : Str) (t : Nat) (more : Str)
    (hbody : ∀ c ∈ body, isLineTerminator c = false) :
    ∀ fuel, body.length + 1 ≤ fuel →
      outdentFrom fuel false (body ++ t :: more) =
        body ++ t :: outdentFrom (fuel - (body.length + 1)) (isLineTerminator t) more := by
  induction body with
  | nil =>
    intro fuel hf
    obtain ⟨f, rfl⟩ : ∃ f, fuel = f + 1 := ⟨fuel - 1, by simp at hf; omega⟩
    simp [outdentFrom_false_cons]
  | cons c body ih =>
    intro fuel hf
    obtain ⟨f, rfl⟩ : ∃ f, fuel = f + 1 := ⟨fuel - 1, by simp at hf; omega⟩
    have hc : isLineTerminator c = false := hbody c (List.mem_cons_self _ _)
    have ih2 := ih (fun x hx => hbody x (List.mem_cons_of_mem _ hx)) f
      (by simp at hf; omega)
    rw [List.cons_append, outdentFrom_false_cons, hc, ih2]
    simp

/-- Away from a line start, a last segment is copied, whatever the fuel. -/
theorem outdentFrom_false_last (body : Str) (hbody : ∀ c ∈ body, isLineTerminator c = false) :
    ∀ fuel, outdentFrom fuel false body = body := by
  induction body with
  | nil => intro fuel; exact outdentFrom_nil fuel false
  | cons c body ih =>
    intro fuel
    cases fuel with
    | zero => rfl
    | succ f =>
      have hc : isLineTerminator c = false := hbody c (List.mem_cons_self _ _)
      rw [outdentFrom_false_cons, hc, ih fun x hx => hbody x (List.mem_cons_of_mem _ hx)]

theorem sliceDropTwo_spaces (k : Nat) :
    sliceDropTwo (List.replicate k 32) = List.replicate (k - min 2 k) 32 := by
  simp only [sliceDropTwo, List.length_replicate, List.take_replicate]
  congr 1
  omega

/-- At a line start, a run of `k` spaces followed by no other white space loses
`min 2 k` spaces, and the scan goes on away from a line start. -/
theorem outdentFrom_true_spaces (k : Nat) (rest : Str) (f : Nat)
    (hrest : ∀ c, rest.head? = some c → isWhiteSpace c = false) :
    ∃ f', f + 1 ≤ f' + k ∧ f ≤ f' ∧
      outdentFrom (f + 1) true (List.replicate k 32 ++ rest) =
        List.replicate (k - min 2 k) 32 ++ outdentFrom f' false rest := by
  have htw := takeWhile_spaces_append k rest hrest
  have hdw := dropWhile_spaces_append k rest hrest
  cases k with
  | zero =>
    refine ⟨f + 1, by omega, by omega, ?_⟩
    simp only [List.replicate_zero, List.nil_append] at htw hdw ⊢
    cases rest with
    | nil => simp [outdentFrom]
    | cons c tail =>
      rw [outdentFrom_false_cons]
      rw [outdentFrom, htw, hdw]
      simp
  | succ k =>
    refine ⟨f, by omega, by omega, ?_⟩
    rw [outdentFrom]
    rw [htw, hdw]
    simp only [List.replicate_succ]
    have hlast : (32 :: List.replicate k 32).getLast (List.cons_ne_nil _ _) = 32 := by
      have h := List.getLast_replicate (n := k + 1) (a := 32) (by simp)
      simpa [List.replicate_succ] using h
    rw [hlast]
    have h32 : isLineTerminator 32 = false := by decide
    rw [h32]
    have hs := sliceDropTwo_spaces (k + 1)
    rw [List.replicate_succ] at hs
    rw [hs]

theorem length_joinSegments_cons (g : Str × Nat) (segments : List (Str × Nat)) (last : Str) :
    (joinSegments (g :: segments) last).length =
      g.1.length + 1 + (joinSegments segments last).length := by
  rw [joinSegments_cons]
  simp only [List.length_append, List.length_cons]
  omega

/-- The replacement `/^(\s*)/gm` on segments whose leading white space is made of spaces
only, with enough fuel for the scan. -/
theorem outdentFrom_joinSegments (lines : List (Indented × Nat)) (last : Indented)
    (hlines : ∀ g ∈ lines, isLineTerminator g.2 = true ∧
      (∀ c ∈ g.1.body, isLineTerminator c = false) ∧
      ∃ c, g.1.body.head? = some c ∧ isWhiteSpace c = false)
    (hlast : (∀ c ∈ last.body, isLineTerminator c = false) ∧
      ∀ c, last.body.head? = some c → isWhiteSpace c = false) :
    ∀ fuel, (joinSegments (lines.map fun g => (g.1.text, g.2)) last.text).length + 1 ≤ fuel →
      outdentFrom fuel true (joinSegments (lines.map fun g => (g.1.text, g.2)) last.text) =
        joinSegments (lines.map fun g => (g.1.outdent.text, g.2)) last.outdent.text := by
  induction lines with
  | nil =>
    intro fuel hf
    obtain ⟨f, rfl⟩ : ∃ f, fuel = f + 1 := ⟨fuel - 1, by omega⟩
    obtain ⟨f', _, _, h⟩ := outdentFrom_true_spaces last.spaces last.body f hlast.2
    simp only [List.map_nil, joinSegments, List.flatMap_nil, List.nil_append]
    simp only [Indented.text, Indented.outdent]
    rw [h, outdentFrom_false_last last.body hlast.1]
  | cons g lines ih =>
    intro fuel hf
    obtain ⟨ht, hbody, c, hc, hcw⟩ := hlines g (List.mem_cons_self _ _)
    have ih2 := ih fun x hx => hlines x (List.mem_cons_of_mem _ hx)
    obtain ⟨f, rfl⟩ : ∃ f, fuel = f + 1 := ⟨fuel - 1, by omega⟩
    simp only [List.map_cons] at hf ⊢
    rw [length_joinSegments_cons] at hf
    rw [joinSegments_cons, joinSegments_cons]
    simp only [Indented.text, Indented.outdent, List.length_append, List.length_replicate,
      List.append_assoc] at hf ⊢
    have hhead : ∀ x, (g.1.body ++ g.2 :: joinSegments
        (lines.map fun g => (List.replicate g.1.spaces 32 ++ g.1.body, g.2))
        (List.replicate last.spaces 32 ++ last.body)).head? = some x →
        isWhiteSpace x = false := by
      intro x hx
      cases hb : g.1.body with
      | nil => rw [hb] at hc; cases hc
      | cons b body =>
        rw [hb] at hc hx
        simp only [List.cons_append, List.head?_cons, Option.some.injEq] at hc hx
        rw [← hx, hc]
        exact hcw
    obtain ⟨f', hf1, hf2, h⟩ := outdentFrom_true_spaces g.1.spaces _ f hhead
    rw [h, outdentFrom_false_segment g.1.body g.2 _ hbody f' (by omega), ht]
    have hfuel : (joinSegments (lines.map fun g => (g.1.text, g.2)) last.text).length + 1 ≤
        f' - (g.1.body.length + 1) := by
      simp only [Indented.text]
      omega
    have h3 := ih2 (f' - (g.1.body.length + 1)) hfuel
    simp only [Indented.text, Indented.outdent] at h3
    rw [h3]

/-- C9, as stated, fails. Shift+Tab on `a`, two line feeds, `b` selected in full removes a
line feed, so the text has one line less; on a tab followed by `x` it removes the tab; and
with `a` selected in two spaces followed by `ab` it removes no space of that line. -/
theorem handleKeyDown_outdent_removes_line_feed :
    (handleKeyDown true (editing (js "a\n\nb") 0 4)).editorValue = js "a\nb" ∧
      (handleKeyDown true (editing (js "\tx") 0 2)).editorValue = js "x" ∧
      (handleKeyDown true (editing (js "  ab") 2 3)).editorValue = js "  ab" ∧
      outdentTouchedLines (js "a\n\nb") 0 4 = js "a\n\nb" ∧
      outdentTouchedLines (js "  ab") 2 3 = js "ab" ∧
      ¬ ∀ (text : Str) (start stop : Nat), start ≤ stop → stop ≤ text.length →
        (handleKeyDown true (editing text start stop)).editorValue =
          outdentTouchedLines text start stop := by
  refine ⟨by decide, by decide, by decide, by decide, by decide, ?_⟩
  intro h
  have h1 := h (js "a\n\nb") 0 4 (by decide) (by decide)
  revert h1
  decide

/-- C9, amended: Shift+Tab acts on the selected text alone. With the selected text cut at
its line terminators into segments, the first of which starts at `selectionStart`, when
every segment is `k` spaces followed by a character that is no white space (or, for the
last segment, by the end of the selection), every segment loses `min 2 k` of its leading
spaces and nothing else changes: the terminators and all other characters stay. -/
theorem handleKeyDown_outdent (s : State) (lines : List (Indented × Nat)) (last : Indented)
    (hse : s.selectionStart ≤ s.selectionEnd) (hlen : s.selectionEnd ≤ s.editorValue.length)
    (hsel : (s.editorValue.drop s.selectionStart).take (s.selectionEnd - s.selectionStart) =
      joinSegments (lines.map fun g => (g.1.text, g.2)) last.text)
    (hlines : ∀ g ∈ lines, isLineTerminator g.2 = true ∧
      (∀ c ∈ g.1.body, isLineTerminator c = false) ∧
      ∃ c, g.1.body.head? = some c ∧ isWhiteSpace c = false)
    (hlast : (∀ c ∈ last.body, isLineTerminator c = false) ∧
      ∀ c, last.body.head? = some c → isWhiteSpace c = false) :
    (handleKeyDown true s).editorValue =
      s.editorValue.take s.selectionStart ++
        joinSegments (lines.map fun g => (g.1.outdent.text, g.2)) last.outdent.text ++
        s.editorValue.drop s.selectionEnd := by
  rw [editorValue_handleKeyDown_outdent s hse hlen, hsel]
  unfold outdentSelected
  rw [outdentFrom_joinSegments lines last hlines hlast _ (Nat.le_refl _)]

/-- Witness of `handleKeyDown_outdent`: lines with 4, 1 and 0 leading spaces and a last
segment of 3 spaces. -/
theorem handleKeyDown_outdent_witness :
    (handleKeyDown true (editing (js "    a\n b\nc\n   ") 0 14)).editorValue =
      js "  a\nb\nc\n " := by
  have h := handleKeyDown_outdent (editing (js "    a\n b\nc\n   ") 0 14)
    [(⟨4, js "a"⟩, 10), (⟨1, js "b"⟩, 10), (⟨0, js "c"⟩, 10)] ⟨3, []⟩
    (by decide) (by decide) (by decide) (by decide) (by decide)
  rw [h]
  decide

/-- A line without line terminator whose leading white space is spaces only is a run of
spaces followed by a rest that does not start with white space. -/
theorem line_eq_spaces_append (line : Str)
    (hsp : ∀ c ∈ line.takeWhile isWhiteSpace, c = 32) :
    line = List.replicate (line.takeWhile isWhiteSpace).length 32 ++
        line.dropWhile isWhiteSpace ∧
      ∀ c, (line.dropWhile isWhiteSpace).head? = some c → isWhiteSpace c = false := by
  constructor
  · rw [← List.eq_replicate_of_mem hsp, List.takeWhile_append_dropWhile]
  · intro c hc
    have h := List.head?_dropWhile_not isWhiteSpace line
    rw [hc] at h
    exact h

/-- Outdenting a freshly indented line that has no line terminator and whose leading white
space is spaces only gives the line back. -/
theorem outdentSelected_indentLine (line : Str)
    (hnl : ∀ c ∈ line, isLineTerminator c = false)
    (hsp : ∀ c ∈ line.takeWhile isWhiteSpace, c = 32) :
    outdentSelected (indentLine line) = line := by
  obtain ⟨hline, hhead⟩ := line_eq_spaces_append line hsp
  have hrest : ∀ c ∈ line.dropWhile isWhiteSpace, isLineTerminator c = false := by
    intro c hc
    apply hnl
    rw [hline]
    exact List.mem_append_right _ hc
  have hind : indentLine line =
      List.replicate ((line.takeWhile isWhiteSpace).length + 2) 32 ++
        line.dropWhile isWhiteSpace := by
    unfold indentLine
    rw [List.replicate_succ, List.replicate_succ, List.cons_append, List.cons_append, ← hline]
  unfold outdentSelected
  obtain ⟨f', _, _, h⟩ := outdentFrom_true_spaces ((line.takeWhile isWhiteSpace).length + 2)
    (line.dropWhile isWhiteSpace) (indentLine line).length hhead
  rw [← hind] at h
  rw [h, outdentFrom_false_last _ hrest]
  have hk : (line.takeWhile isWhiteSpace).length + 2 -
      min 2 ((line.takeWhile isWhiteSpace).length + 2) =
      (line.takeWhile isWhiteSpace).length := by omega
  rw [hk]
  exact hline.symm

theorem take_drop_middle (pre mid post : Str) :
    (pre ++ mid ++ post).take pre.length = pre ∧
      ((pre ++ mid ++ post).drop pre.length).take (pre.length + mid.length - pre.length) = mid ∧
      (pre ++ mid ++ post).drop (pre.length + mid.length) = post := by
  refine ⟨?_, ?_, ?_⟩
  · rw [List.append_assoc, List.take_left]
  · rw [List.append_assoc, List.drop_left, Nat.add_sub_cancel_left, List.take_left]
  · rw [← List.length_append, List.drop_left]

/-- C10, as stated, fails: the line made of a tab followed by `x`, selected in full, becomes
two spaces, the tab and `x` by Tab, and Shift+Tab on that whole line leaves a space followed
by `x`. -/
theorem indent_outdent_tab_line :
    (∀ c ∈ js "\tx", c ≠ 10) ∧
      (handleKeyDown false (editing (js "\tx") 0 2)).editorValue = js "  \tx" ∧
      (handleKeyDown true (select 0 4 (handleKeyDown false (editing (js "\tx") 0 2)))).editorValue =
        js " x" ∧
      (handleKeyDown true (select 0 4 (handleKeyDown false (editing (js "\tx") 0 2)))).editorValue ≠
        js "\tx" := by
  decide

/-- C10, amended: for every line without a line terminator (LF, CR, LS, PS) whose leading
white space consists of space characters only, selected in full between any text before and
after it, Tab turns the line into two spaces followed by the line, and Shift+Tab on the
whole resulting line gives back exactly the original text. -/
theorem indent_outdent_round_trip (s : State) (pre line post : Str)
    (hv : s.editorValue = pre ++ line ++ post)
    (hs : s.selectionStart = pre.length) (he : s.selectionEnd = pre.length + line.length)
    (hnl : ∀ c ∈ line, isLineTerminator c = false)
    (hsp : ∀ c ∈ line.takeWhile isWhiteSpace, c = 32) :
    (handleKeyDown false s).editorValue = pre ++ indentLine line ++ post ∧
      (handleKeyDown true
        (select pre.length (pre.length + line.length + 2) (handleKeyDown false s))).editorValue =
        s.editorValue := by
  have h1 : (handleKeyDown false s).editorValue = pre ++ indentLine line ++ post := by
    obtain ⟨ha, hb, hc⟩ := take_drop_middle pre line post
    rw [editorValue_handleKeyDown_indent s (by omega)
      (by rw [he, hv]; simp only [List.length_append]; omega), hs, he, hv, ha, hb, hc]
    unfold indentSelected
    rw [indentFrom_true_last line hnl]
  refine ⟨h1, ?_⟩
  have hlen : (indentLine line).length = line.length + 2 := by simp [indentLine]
  obtain ⟨ha, hb, hc⟩ := take_drop_middle pre (indentLine line) post
  rw [hlen] at hb hc
  have hv2 : (select pre.length (pre.length + line.length + 2)
      (handleKeyDown false s)).editorValue = pre ++ indentLine line ++ post := h1
  have hs2 : (select pre.length (pre.length + line.length + 2)
      (handleKeyDown false s)).selectionStart = pre.length := rfl
  have he2 : (select pre.length (pre.length + line.length + 2)
      (handleKeyDown false s)).selectionEnd = pre.length + (line.length + 2) := rfl
  rw [editorValue_handleKeyDown_outdent _ (by rw [hs2, he2]; omega)
    (by rw [he2, hv2]; simp only [List.length_append, hlen]; omega), hs2, he2, hv2, ha, hb, hc,
    outdentSelected_indentLine line hnl hsp, hv]

/-- Witness of `indent_outdent_round_trip`: the middle line, with three leading spaces, of a
three-line text. -/
theorem indent_outdent_round_trip_witness :
    (handleKeyDown false (editing (js "ab\n   cd e\nf") 3 10)).editorValue =
        js "ab\n     cd e\nf" ∧
      (handleKeyDown true
        (select 3 12 (handleKeyDown false (editing (js "ab\n   cd e\nf") 3 10)))).editorValue =
        js "ab\n   cd e\nf" := by
  have h := indent_outdent_round_trip (editing (js "ab\n   cd e\nf") 3 10)
    (js "ab\n") (js "   cd e") (js "\nf") (by decide) (by decide) (by decide) (by decide)
    (by decide)
  exact ⟨by rw [h.1]; decide, h.2⟩

/-! ## Theorems: scroll mirroring -/

theorem syncScroll_of_busy {α : Type} [Sub α] [Div α] [Mul α] (now : Nat)
    (source target : Pane α) (g : ScrollGuard) (h : g.isScrolling = true) :
    syncScroll now source target g = (target, g) := by
  unfold syncScroll
  rw [if_pos h]

theorem syncScroll_of_idle {α : Type} [Sub α] [Div α] [Mul α] (now : Nat)
    (source target : Pane α) (g : ScrollGuard) (h : g.isScrolling = false) :
    syncScroll now source target g =
      ({ target with
          scrollTop := source.scrollTop / (source.scrollHeight - source.clientHeight) *
            (target.scrollHeight - target.clientHeight) },
        { isScrolling := true, scrollTimeout := some (now + 50) }) := by
  unfold syncScroll
  rw [if_neg (by rw [h]; decide)]

theorem scrollCall_of_busy {α : Type} [Sub α] [Div α] [Mul α] (fromEditor : Bool)
    (v : Viewport α) (h : v.guard.isScrolling = true) : scrollCall fromEditor v = v := by
  unfold scrollCall
  cases fromEditor <;> simp [syncScroll_of_busy _ _ _ _ h]

theorem guard_scrollCall_of_idle {α : Type} [Sub α] [Div α] [Mul α] (fromEditor : Bool)
    (v : Viewport α) (h : v.guard.isScrolling = false) :
    (scrollCall fromEditor v).guard = { isScrolling := true, scrollTimeout := some (v.now + 50) } ∧
      (scrollCall fromEditor v).now = v.now := by
  unfold scrollCall
  cases fromEditor <;> simp [syncScroll_of_idle _ _ _ _ h]

theorem scrollWait_of_pending_later {α : Type} (dt : Nat) (v : Viewport α) (deadline : Nat)
    (hp : v.guard.scrollTimeout = some deadline) (hlt : v.now + dt < deadline) :
    scrollWait dt v = { v with now := v.now + dt } := by
  unfold scrollWait
  rw [hp]
  simp only
  rw [if_neg (by omega)]

theorem scrollWait_of_pending_due {α : Type} (dt : Nat) (v : Viewport α) (deadline : Nat)
    (hp : v.guard.scrollTimeout = some deadline) (hle : deadline ≤ v.now + dt) :
    scrollWait dt v =
      { v with now := v.now + dt, guard := { isScrolling := false, scrollTimeout := none } } := by
  unfold scrollWait
  rw [hp]
  simp only
  rw [if_pos hle]

/-- While the guard is set and its timeout is not due, listener calls change nothing but
the clock. -/
theorem scrollCalls_of_busy {α : Type} [Sub α] [Div α] [Mul α] (calls : List (Nat × Bool))
    (deadline : Nat) :
    ∀ v : Viewport α, v.guard = { isScrolling := true, scrollTimeout := some deadline } →
      v.now + (calls.map Prod.fst).sum < deadline →
      scrollCalls calls v = { v with now := v.now + (calls.map Prod.fst).sum } := by
  induction calls with
  | nil => intro v _ _; simp [scrollCalls]
  | cons c calls ih =>
    intro v hg hsum
    obtain ⟨dt, fromEditor⟩ := c
    simp only [List.map_cons, List.sum_cons] at hsum ⊢
    have hp : v.guard.scrollTimeout = some deadline := by rw [hg]
    have hw := scrollWait_of_pending_later dt v deadline hp (by omega)
    have hbusy : (scrollWait dt v).guard.isScrolling = true := by rw [hw]; simp [hg]
    simp only [scrollCalls]
    rw [scrollCall_of_busy fromEditor _ hbusy, hw, ih _ (by simpa using hg) (by simpa using by omega)]
    simp [Nat.add_assoc]

/-- C11: when `isScrolling` is false, `syncScroll(source, target)` sets `target.scrollTop` to
`(source.scrollTop / (source.scrollHeight - source.clientHeight)) *
(target.scrollHeight - target.clientHeight)`, so a source at the fraction `half` gives
`half` times the target's range, and it sets the guard with a timeout 50 ms later. Every
listener call made before that timeout is due, in either direction, leaves both panes and
the guard as they are, and once the 50 ms have passed the flag is cleared. -/
theorem syncScroll_guarded_mirror {α : Type} [Sub α] [Div α] [Mul α] (now : Nat)
    (source target : Pane α) (g : ScrollGuard) (half : α) (v : Viewport α) (first : Bool)
    (calls : List (Nat × Bool)) (late : Nat)
    (hidle : g.isScrolling = false)
    (hhalf : source.scrollTop / (source.scrollHeight - source.clientHeight) = half)
    (hv : v.guard.isScrolling = false)
    (hwin : (calls.map Prod.fst).sum < 50)
    (hlate : 50 ≤ (calls.map Prod.fst).sum + late) :
    (syncScroll now source target g).1.scrollTop =
        source.scrollTop / (source.scrollHeight - source.clientHeight) *
          (target.scrollHeight - target.clientHeight) ∧
      (syncScroll now source target g).1.scrollTop =
        half * (target.scrollHeight - target.clientHeight) ∧
      (syncScroll now source target g).2 =
        { isScrolling := true, scrollTimeout := some (now + 50) } ∧
      (scrollCalls calls (scrollCall first v)).editor = (scrollCall first v).editor ∧
      (scrollCalls calls (scrollCall first v)).preview = (scrollCall first v).preview ∧
      (scrollCalls calls (scrollCall first v)).guard =
        { isScrolling := true, scrollTimeout := some (v.now + 50) } ∧
      (scrollWait late (scrollCalls calls (scrollCall first v))).guard.isScrolling = false := by
  obtain ⟨hg, hnow⟩ := guard_scrollCall_of_idle first v hv
  have hrun := scrollCalls_of_busy calls (v.now + 50) (scrollCall first v) hg
    (by rw [hnow]; omega)
  refine ⟨?_, ?_, ?_, ?_, ?_, ?_, ?_⟩
  · rw [syncScroll_of_idle now source target g hidle]
  · rw [syncScroll_of_idle now source target g hidle, ← hhalf]
  · rw [syncScroll_of_idle now source target g hidle]
  · rw [hrun]
  · rw [hrun]
  · rw [hrun]
    exact hg
  · have hp : (scrollCalls calls (scrollCall first v)).guard.scrollTimeout =
        some (v.now + 50) := by
      rw [hrun]
      simp [hg]
    have hn : (scrollCalls calls (scrollCall first v)).now =
        v.now + (calls.map Prod.fst).sum := by
      rw [hrun]
      simp [hnow]
    rw [scrollWait_of_pending_due late _ _ hp (by rw [hn]; omega)]

/-- Witness of `syncScroll_guarded_mirror`, with exact fractions as numbers: a source
scrolled by 100 of its range 200 sets a target of range 300 to 150, and the reverse call
20 ms later changes nothing. -/
theorem syncScroll_guarded_mirror_witness :
    (syncScroll 0 (⟨100, 300, 100⟩ : Pane ℚ) ⟨0, 400, 100⟩ ⟨false, none⟩).1.scrollTop = 150 ∧
      (scrollCalls [(20, false)]
        (scrollCall true (⟨0, ⟨100, 300, 100⟩, ⟨0, 400, 100⟩, ⟨false, none⟩⟩ : Viewport ℚ))).editor =
        ⟨100, 300, 100⟩ := by
  have h := syncScroll_guarded_mirror 0 (⟨100, 300, 100⟩ : Pane ℚ) ⟨0, 400, 100⟩ ⟨false, none⟩
    (1 / 2) (⟨0, ⟨100, 300, 100⟩, ⟨0, 400, 100⟩, ⟨false, none⟩⟩ : Viewport ℚ) true
    [(20, false)] 30 rfl (by norm_num) rfl (by decide) (by decide)
  refine ⟨?_, ?_⟩
  · rw [h.2.1]
    norm_num
  · rw [h.2.2.2.1]
    rfl

/-! ## Theorems: restoring and deleting versions -/

/-- C12: when no stored version has the id, `restoreVersion(id)` opens no `confirm` dialog
and leaves the whole session as it is: the editor text, the title, the author, the stored
versions and the autosave timer. The call has no failing path. -/
theorem restoreVersion_missing (id : Nat) (answer : Bool) (now : Nat) (s : State)
    (h : ∀ v ∈ storedVersions s, v.id ≠ id) :
    (restoreVersion id answer now s).state = s ∧
      (restoreVersion id answer now s).confirms = [] ∧
      (restoreVersion id answer now s).state.editorValue = s.editorValue ∧
      (restoreVersion id answer now s).state.articleTitle = s.articleTitle ∧
      (restoreVersion id answer now s).state.articleAuthor = s.articleAuthor ∧
      storedVersions (restoreVersion id answer now s).state = storedVersions s ∧
      (restoreVersion id answer now s).state.autoSaveTimer = s.autoSaveTimer := by
  have hfind : (storedVersions s).find? (fun v => v.id == id) = none := by
    rw [List.find?_eq_none]
    intro v hv
    simpa using h v hv
  have hr : restoreVersion id answer now s = { state := s, confirms := [] } := by
    unfold restoreVersion
    simp only [hfind]
  rw [hr]
  exact ⟨rfl, rfl, rfl, rfl, rfl, rfl, rfl⟩

/-- Witness of `restoreVersion_missing`: the store holds the ids 5 and 3, and the id asked
for is 4. -/
theorem restoreVersion_missing_witness :
    (restoreVersion 4 true 9
      (applyVersionOps [.save ⟨js "a", [], []⟩ 3 [], .save ⟨js "b", [], []⟩ 5 []]
        initialState)).confirms = [] :=
  (restoreVersion_missing 4 true 9
    (applyVersionOps [.save ⟨js "a", [], []⟩ 3 [], .save ⟨js "b", [], []⟩ 5 []] initialState)
    (by decide)).2.1

theorem storedVersions_deleteVersion (id : Nat) (answer : Bool) (s : State) :
    storedVersions (deleteVersion id answer s) =
      if answer then (storedVersions s).filter (fun v => v.id != id) else storedVersions s := by
  unfold deleteVersion
  cases answer <;> simp [storedVersions]

theorem storedVersions_applyVersionOp_sublist (op : VersionOp) (s : State)
    (hlen : (storedVersions s).length ≤ 10) :
    match op with
    | .save d now stamp =>
      storedVersions (applyVersionOp op s) = (entryOf (d, now, stamp) :: storedVersions s).take 10
    | .delete _ _ => (storedVersions (applyVersionOp op s)).Sublist (storedVersions s) := by
  cases op with
  | save d now stamp =>
    have h := storedVersions_saveVersion_take now stamp (setDocument d s)
      (by rw [storedVersions_setDocument]; exact hlen)
    rw [newVersion_setDocument, storedVersions_setDocument] at h
    exact h
  | delete id answer =>
    simp only [applyVersionOp]
    rw [storedVersions_deleteVersion]
    split
    · exact List.filter_sublist _
    · exact List.Sublist.refl _

/-- The invariant of the version store along a run whose later clock readings exceed every
stored id and increase strictly. -/
theorem applyVersionOps_invariant (ops : List VersionOp) :
    ∀ s : State, (storedVersions s).length ≤ 10 →
      (storedIds s).Pairwise (· > ·) →
      (∀ i ∈ storedIds s, ∀ t ∈ saveTimes ops, i < t) →
      (saveTimes ops).Pairwise (· < ·) →
      (storedVersions (applyVersionOps ops s)).length ≤ 10 ∧
        (storedIds (applyVersionOps ops s)).Pairwise (· > ·) := by
  induction ops with
  | nil => intro s hlen hp _ _; exact ⟨hlen, hp⟩
  | cons op ops ih =>
    intro s hlen hp hlt hclock
    have hstep := storedVersions_applyVersionOp_sublist op s hlen
    simp only [applyVersionOps]
    cases op with
    | save d now stamp =>
      simp only at hstep
      simp only [saveTimes, List.pairwise_cons, List.mem_cons, forall_eq_or_imp] at hclock hlt
      have hids : storedIds (applyVersionOp (.save d now stamp) s) =
          (now :: storedIds s).take 10 := by
        unfold storedIds
        rw [hstep, List.map_take]
        rfl
      have hsub : (storedIds (applyVersionOp (.save d now stamp) s)).Sublist
          (now :: storedIds s) := by
        rw [hids]
        exact List.take_sublist _ _
      apply ih
      · rw [hstep]
        simp
      · apply List.Pairwise.sublist hsub
        rw [List.pairwise_cons]
        exact ⟨fun i hi => (hlt i hi).1, hp⟩
      · intro i hi t ht
        have hi2 := hsub.subset hi
        rcases List.mem_cons.mp hi2 with rfl | hi3
        · exact hclock.1 t ht
        · exact (hlt i hi3).2 t ht
      · exact hclock.2
    | delete id answer =>
      simp only at hstep
      simp only [saveTimes] at hclock hlt
      have hsub : (storedIds (applyVersionOp (.delete id answer) s)).Sublist (storedIds s) :=
        List.Sublist.map _ hstep
      apply ih
      · exact Nat.le_trans hstep.length_le hlen
      · exact List.Pairwise.sublist hsub hp
      · intro i hi t ht
        exact hlt i (hsub.subset hi) t ht
      · exact hclock

/-- C13, as stated, fails: two `saveVersion` calls that read the same clock value 5, which a
non-decreasing clock allows, store two versions with the id 5, so the ids are not strictly
decreasing and the id 5 identifies two versions. -/
theorem saveVersion_same_clock_reading :
    (saveTimes [.save ⟨js "a", [], []⟩ 5 [], .save ⟨js "b", [], []⟩ 5 []]).Pairwise (· ≤ ·) ∧
      storedIds (applyVersionOps [.save ⟨js "a", [], []⟩ 5 [], .save ⟨js "b", [], []⟩ 5 []]
        initialState) = [5, 5] ∧
      ¬ ∀ (s0 : State) (ops : List VersionOp), storedVersions s0 = [] →
        (saveTimes ops).Pairwise (· ≤ ·) →
        (storedIds (applyVersionOps ops s0)).Pairwise (· > ·) := by
  refine ⟨by decide, by decide, ?_⟩
  intro h
  have h1 := h initialState [.save ⟨js "a", [], []⟩ 5 [], .save ⟨js "b", [], []⟩ 5 []]
    (by decide) (by decide)
  revert h1
  decide

/-- C13, amended: starting from an empty version store, after every sequence of
`saveVersion` and `deleteVersion` operations in which the clock readings of the
`saveVersion` calls increase strictly from one call to the next, the stored sequence has
length at most 10 and its ids are strictly decreasing from the first entry to the last,
hence pairwise distinct. -/
theorem version_store_ordered (s0 : State) (ops : List VersionOp)
    (h0 : storedVersions s0 = [])
    (hclock : (saveTimes ops).Pairwise (· < ·)) :
    (storedVersions (applyVersionOps ops s0)).length ≤ 10 ∧
      (storedIds (applyVersionOps ops s0)).Pairwise (· > ·) ∧
      (storedIds (applyVersionOps ops s0)).Nodup := by
  have hinv := applyVersionOps_invariant ops s0 (by simp [h0])
    (by simp [storedIds, h0]) (by simp [storedIds, h0]) hclock
  refine ⟨hinv.1, hinv.2, ?_⟩
  exact hinv.2.imp fun hab => Nat.ne_of_gt hab

/-- Witness of `version_store_ordered`: saves at the times 3, 5 and 8 with a confirmed
deletion of the id 5 in between. -/
theorem version_store_ordered_witness :
    storedIds (applyVersionOps
        [.save ⟨js "a", [], []⟩ 3 [], .save ⟨js "b", [], []⟩ 5 [], .delete 5 true,
          .save ⟨js "c", [], []⟩ 8 []] initialState) = [8, 3] ∧
      (storedIds (applyVersionOps
        [.save ⟨js "a", [], []⟩ 3 [], .save ⟨js "b", [], []⟩ 5 [], .delete 5 true,
          .save ⟨js "c", [], []⟩ 8 []] initialState)).Pairwise (· > ·) :=
  ⟨by decide,
    (version_store_ordered initialState
      [.save ⟨js "a", [], []⟩ 3 [], .save ⟨js "b", [], []⟩ 5 [], .delete 5 true,
        .save ⟨js "c", [], []⟩ 8 []] (by decide) (by decide)).2.1⟩

end WeChatEditor
